import Mathlib

/-!
# Shallow embedding of the part-time shift scheduler (src/main.py)

Dates are modelled by their Julian day number (`QDate.toJulianDay`); with
this convention `QDate.dayOfWeek d = d % 7 + 1` (1 = Monday .. 7 = Sunday)
and `QDate.addDays 1` is `Nat.succ`.  The roster `ScheduleManager.schedule`
is a Python dict from an ISO date string to a list of entry dicts; ISO
strings of valid dates are in bijection with Julian days, so the dict is
modelled as an insertion-ordered association list keyed by the Julian day
(a Python dict preserves insertion order, updates in place, and never holds
two pairs with the same key).
-/

namespace PartTime

/-- The shift enumeration: the `"AM"` / `"PM"` strings of the source.  The
UI widgets (`QComboBox` with items `["AM", "PM"]`, the AM/PM checkboxes)
and the persisted schema only ever produce these two values. -/
inductive Shift
  | AM
  | PM
deriving DecidableEq, Repr

/-- The AM/PM swap, written in the source as
`"PM" if base_shift == "AM" else "AM"` (in `add_schedule`) and
`"AM" if entry["shift"] == "PM" else "PM"` (in `toggle_shift`); on the
two-valued enumeration both expressions are this function. -/
def Shift.other : Shift → Shift
  | .AM => .PM
  | .PM => .AM

/-- One entry dict `{"name": ..., "shift": ..., "absent": ..., "tardy": ...}`. -/
structure Entry where
  name : String
  shift : Shift
  absent : Bool
  tardy : Bool
deriving DecidableEq, Repr

/-- The in-memory roster `self.schedule`, as an insertion-ordered
association list from Julian day to the day's entry list. -/
abbrev Roster := List (Nat × List Entry)

/-- Dict lookup `self.schedule[key]` / `key in self.schedule` (as an Option). -/
def lookupDay : Roster → Nat → Option (List Entry)
  | [], _ => none
  | (k, es) :: t, d => if k = d then some es else lookupDay t d

/-- `key in self.schedule`. -/
def containsDay (m : Roster) (d : Nat) : Bool :=
  (lookupDay m d).isSome

/-- Dict update `self.schedule[key] = v` for a key already present: the
pair keeps its position. -/
def setDay (m : Roster) (d : Nat) (v : List Entry) : Roster :=
  m.map (fun p => if p.1 = d then (d, v) else p)

/-- Dict deletion `del self.schedule[key]`. -/
def eraseDay (m : Roster) (d : Nat) : Roster :=
  m.filter (fun p => decide (p.1 ≠ d))

/-- `QDate.dayOfWeek` in terms of the Julian day: 1 = Monday .. 7 = Sunday. -/
def dayOfWeek (d : Nat) : Nat :=
  d % 7 + 1

/-- The per-weekday row of widgets stored in `self.weekday_checks[num] =
(day_cb, biweekly_cb, biweekly_combo)`, projected through
`isChecked()` / `currentText()`. -/
structure WRule where
  dayChecked : Bool
  biweeklyChecked : Bool
  biweeklyBase : Shift
deriving DecidableEq, Repr

/-- The entries appended to one date's list by `add_schedule` once the
weekday checkbox is checked: the bi-weekly branch appends a single entry
whose shift is decided by the parity of
`(current.toJulianDay() - start_date.toJulianDay()) // 7`, the other
branch appends one entry per shift in `shifts`.  Inside the loop
`current ≥ start_date`, so the Python floor division of the nonnegative
difference is Nat division. -/
def dayDelta (name : String) (shifts : List Shift) (r : WRule)
    (startDate current : Nat) : List Entry :=
  if r.biweeklyChecked then
    let weekOffset := (current - startDate) / 7
    let shiftToUse := if weekOffset % 2 = 0 then r.biweeklyBase else r.biweeklyBase.other
    [⟨name, shiftToUse, false, false⟩]
  else
    shifts.map (fun s => ⟨name, s, false, false⟩)

/-- One iteration of the `while current <= end_date` loop of
`ScheduleManager.add_schedule`: look the weekday up in `weekday_info`
(`if dow in weekday_info`), and when its checkbox is checked create the
date's key if absent (`self.schedule[key] = []`) and append the computed
entries to its list. -/
def processDay (name : String) (shifts : List Shift)
    (weekdayInfo : Nat → Option WRule) (startDate : Nat)
    (sched : Roster) (current : Nat) : Roster :=
  match weekdayInfo (dayOfWeek current) with
  | none => sched
  | some r =>
    if r.dayChecked then
      let sched1 := if containsDay sched current then sched else sched ++ [(current, [])]
      setDay sched1 current
        ((lookupDay sched1 current).getD [] ++ dayDelta name shifts r startDate current)
    else sched

/-- The days visited by `while current <= end_date: ... current =
current.addDays(1)`, in ascending order (empty when `startDate > endDate`). -/
def dateRange (startDate endDate : Nat) : List Nat :=
  (List.range (endDate + 1 - startDate)).map (fun i => startDate + i)

/-- `ScheduleManager.add_schedule` restricted to its effect on the
in-memory roster (the trailing `save_schedule()` call is the persistence
step, modelled by `save_schedule` below). -/
def add_schedule (name : String) (shifts : List Shift)
    (weekdayInfo : Nat → Option WRule) (startDate endDate : Nat)
    (sched : Roster) : Roster :=
  (dateRange startDate endDate).foldl (processDay name shifts weekdayInfo startDate) sched

/-- One iteration of the loop of `ScheduleManager.delete_schedule`: keep
the entries whose `name` differs, then drop the key if its list became
empty. -/
def deleteDay (name : String) (sched : Roster) (current : Nat) : Roster :=
  match lookupDay sched current with
  | none => sched
  | some es =>
    let filtered := es.filter (fun e => decide (e.name ≠ name))
    let sched1 := setDay sched current filtered
    if filtered.isEmpty then eraseDay sched1 current else sched1

/-- `ScheduleManager.delete_schedule` restricted to its effect on the
in-memory roster. -/
def delete_schedule (name : String) (startDate endDate : Nat)
    (sched : Roster) : Roster :=
  (dateRange startDate endDate).foldl (deleteDay name) sched

/-- One iteration of the loop of `ScheduleManager.toggle_shift`:
`entry = self.schedule[key][idx]` raises `IndexError` when `idx` is out of
range (the `none` result), otherwise the entry's shift is swapped. -/
def toggleEntryAt (es : List Entry) (idx : Nat) : Option (List Entry) :=
  match es[idx]? with
  | none => none
  | some e => some (es.set idx { e with shift := if e.shift = .PM then .AM else .PM })

/-- The `for idx in indices` loop of `toggle_shift`, over the current list. -/
def toggleAll : List Entry → List Nat → Option (List Entry)
  | es, [] => some es
  | es, idx :: rest =>
    match toggleEntryAt es idx with
    | none => none
    | some es1 => toggleAll es1 rest

/-- `ScheduleManager.toggle_shift`.  The whole body is guarded by
`if key in self.schedule`, so a missing date skips the loop and the
`save_schedule()` call.  The returned Bool records whether
`save_schedule()` ran; `none` models an `IndexError` escaping the loop. -/
def toggle_shift (sched : Roster) (date : Nat) (indices : List Nat) :
    Option (Roster × Bool) :=
  match lookupDay sched date with
  | some es =>
    match toggleAll es indices with
    | none => none
    | some es1 => some (setDay sched date es1, true)
  | none => some (sched, false)

/-- Insertion step of a stable descending sort of `Nat`s. -/
def insertDesc (i : Nat) : List Nat → List Nat
  | [] => [i]
  | j :: t => if j ≤ i then i :: j :: t else j :: insertDesc i t

/-- `sorted(indices, reverse=True)`: any stable descending sort; on `Nat`
keys the result is unique, so insertion sort is a faithful model. -/
def sortDesc : List Nat → List Nat
  | [] => []
  | i :: t => insertDesc i (sortDesc t)

/-- The removal loop of the context-menu delete
(`for i in sorted(indices, reverse=True): del self.schedule_manager.schedule[key][i]`). -/
def removeIndices (es : List Entry) (indices : List Nat) : List Entry :=
  (sortDesc indices).foldl (fun acc i => acc.eraseIdx i) es

/-- The `action_delete` branch of `contextMenuEvent`: only runs when the
date's key is present and the dialog returned a nonempty index list;
after the removals the key is dropped if its list became empty. -/
def removeEntries (sched : Roster) (date : Nat) (indices : List Nat) : Roster :=
  match lookupDay sched date with
  | none => sched
  | some es =>
    if indices.isEmpty then sched
    else
      let es1 := removeIndices es indices
      let sched1 := setDay sched date es1
      if es1.isEmpty then eraseDay sched1 date else sched1

/-- Stated from the claim's words (refinement side of C9): the entries of
`es` whose position (counted from `pos`) is not in `indices`, in their
original relative order. -/
def specSurvivors (indices : List Nat) : Nat → List Entry → List Entry
  | _, [] => []
  | pos, e :: t =>
    if pos ∈ indices then specSurvivors indices (pos + 1) t
    else e :: specSurvivors indices (pos + 1) t

/-- One row of the persisted spreadsheet, after the date cell has been put
through the parsing of `load_schedule` (`pd.to_datetime` /
`QDate.fromString`): `date = some jd` when the cell parses to a valid
date, `none` when it does not (such rows are dropped with a logged
error).  The `absent` / `tardy` fields hold the cell values, which are
only consulted when the corresponding column exists. -/
structure RawRow where
  date : Option Nat
  name : String
  shift : Shift
  absent : Bool
  tardy : Bool
deriving DecidableEq, Repr

/-- The persisted spreadsheet: which of the optional `absent` / `tardy`
columns are present, plus the rows.  The `date`, `name`, `shift` columns
are always present in the modelled tables (the claims only exercise the
3-column and 5-column schemas). -/
structure Table where
  hasAbsent : Bool
  hasTardy : Bool
  rows : List RawRow
deriving DecidableEq, Repr

/-- The existing-file branch of `ScheduleManager.ensure_excel_file`: when
`{"date","name","shift","absent","tardy"}` is not a subset of the file's
columns, the file is recreated as an empty table with the canonical
5-column header. -/
def ensure_excel_file (t : Table) : Table :=
  if t.hasAbsent && t.hasTardy then t
  else { hasAbsent := true, hasTardy := true, rows := [] }

/-- One iteration of the row loop of `ScheduleManager.load_schedule`:
rows with an unparseable date are dropped; the date's key is created when
absent; `absent`/`tardy` take the cell value when the column exists and
default to `False` otherwise; the rebuilt entry is appended. -/
def loadRow (hasAbsent hasTardy : Bool) (sched : Roster) (r : RawRow) : Roster :=
  match r.date with
  | none => sched
  | some d =>
    let sched1 := if containsDay sched d then sched else sched ++ [(d, [])]
    let absent := if hasAbsent then r.absent else false
    let tardy := if hasTardy then r.tardy else false
    setDay sched1 d ((lookupDay sched1 d).getD [] ++ [⟨r.name, r.shift, absent, tardy⟩])

/-- `ScheduleManager.load_schedule` on a table whose `date` column exists. -/
def load_schedule (t : Table) : Roster :=
  t.rows.foldl (loadRow t.hasAbsent t.hasTardy) []

/-- One output row of `save_schedule`: the date cell is written as the
key's ISO string, which parses back to the same Julian day, hence
`some d`. -/
def rowOf (d : Nat) (e : Entry) : RawRow :=
  ⟨some d, e.name, e.shift, e.absent, e.tardy⟩

/-- The row list written by `ScheduleManager.save_schedule`: one row per
entry, iterating the dict in insertion order. -/
def rowsOf (sched : Roster) : List RawRow :=
  sched.flatMap (fun p => p.2.map (rowOf p.1))

/-- `ScheduleManager.save_schedule`: full rewrite with the canonical
5-column header. -/
def save_schedule (sched : Roster) : Table :=
  { hasAbsent := true, hasTardy := true, rows := rowsOf sched }

/-- The no-empty-key invariant of the roster data model: no date key maps
to an empty entry list. -/
def noEmptyDay (m : Roster) : Prop :=
  ∀ p ∈ m, p.2 ≠ ([] : List Entry)

instance (m : Roster) : Decidable (noEmptyDay m) :=
  inferInstanceAs (Decidable (∀ p ∈ m, p.2 ≠ ([] : List Entry)))

/-- Python dicts never hold two pairs with the same key; the association
lists reachable from an actual `ScheduleManager` all satisfy this. -/
def nodupKeys (m : Roster) : Prop :=
  (m.map Prod.fst).Nodup

instance (m : Roster) : Decidable (nodupKeys m) :=
  inferInstanceAs (Decidable ((m.map Prod.fst).Nodup))

/-- Whether `add_schedule` acts on day `d` at all: the weekday is present
in `weekday_info` and its checkbox is checked. -/
def enabledOn (weekdayInfo : Nat → Option WRule) (d : Nat) : Bool :=
  match weekdayInfo (dayOfWeek d) with
  | some r => r.dayChecked
  | none => false

/-- The entries `add_schedule` appends to day `d`'s list ( `[]` when the
weekday is absent or unchecked). -/
def dayDeltaOf (name : String) (shifts : List Shift)
    (weekdayInfo : Nat → Option WRule) (startDate d : Nat) : List Entry :=
  match weekdayInfo (dayOfWeek d) with
  | some r => if r.dayChecked then dayDelta name shifts r startDate d else []
  | none => []

/-- What one day's binding becomes under `delete_schedule` (the branch
structure of `deleteDay`, per binding). -/
def delResult (name : String) : Option (List Entry) → Option (List Entry)
  | none => none
  | some es =>
    let f := es.filter (fun e => decide (e.name ≠ name))
    if f.isEmpty then none else some f

/-! Concrete inputs used by the closed statements below. -/

/-- A `weekday_checks` state enabling only Monday, bi-weekly, base AM. -/
def wiMonBi : Nat → Option WRule :=
  fun dow => if dow = 1 then some ⟨true, true, Shift.AM⟩ else some ⟨false, false, Shift.AM⟩

/-- A `weekday_checks` state enabling only Tuesday, not bi-weekly. -/
def wiTue : Nat → Option WRule :=
  fun dow => if dow = 2 then some ⟨true, false, Shift.AM⟩ else some ⟨false, false, Shift.AM⟩

/-- A `weekday_checks` state enabling only Monday, not bi-weekly. -/
def wiMon : Nat → Option WRule :=
  fun dow => if dow = 1 then some ⟨true, false, Shift.AM⟩ else some ⟨false, false, Shift.AM⟩

/-- A `weekday_checks` state with every checkbox unchecked. -/
def wiNone : Nat → Option WRule :=
  fun _ => some ⟨false, false, Shift.AM⟩

/-- A legacy 3-column table (`date`, `name`, `shift` only) with one row on
Julian day 7 (a Monday); the junk `true` cell values stand for whatever a
missing column would have yielded. -/
def legacyTable : Table :=
  { hasAbsent := false, hasTardy := false,
    rows := [⟨some 7, "kim", Shift.AM, true, true⟩] }

/-- A small roster: worker a on Julian days 7 (AM) and 9 (PM), worker b on
day 7 (PM). -/
def rosterAB : Roster :=
  [(7, [⟨"a", Shift.AM, false, false⟩, ⟨"b", Shift.PM, false, false⟩]),
   (9, [⟨"a", Shift.PM, false, false⟩])]

/-- A well-formed 5-column table with two rows sharing a date. -/
def exTable : Table :=
  { hasAbsent := true, hasTardy := true,
    rows := [⟨some 8, "a", Shift.PM, false, true⟩,
             ⟨some 7, "b", Shift.AM, false, false⟩,
             ⟨some 8, "b", Shift.AM, true, false⟩] }

/-! ## Association-list lemmas -/

theorem lookupDay_cons (q : Nat) (es : List Entry) (t : Roster) (d : Nat) :
    lookupDay ((q, es) :: t) d = if q = d then some es else lookupDay t d := rfl

theorem setDay_cons (q : Nat) (es : List Entry) (t : Roster) (d : Nat) (v : List Entry) :
    setDay ((q, es) :: t) d v = (if q = d then (d, v) else (q, es)) :: setDay t d v := by
  simp only [setDay, List.map_cons]

theorem eraseDay_cons (q : Nat) (es : List Entry) (t : Roster) (d : Nat) :
    eraseDay ((q, es) :: t) d =
      if q = d then eraseDay t d else (q, es) :: eraseDay t d := by
  by_cases hq : q = d
  · simp [eraseDay, List.filter_cons, hq]
  · simp [eraseDay, List.filter_cons, hq]

theorem lookupDay_eq_none_iff (m : Roster) (k : Nat) :
    lookupDay m k = none ↔ ∀ p ∈ m, p.1 ≠ k := by
  induction m with
  | nil => simp [lookupDay]
  | cons p t ih =>
    obtain ⟨q, es⟩ := p
    by_cases hq : q = k
    · subst hq
      simp [lookupDay_cons, ih]
    · simp only [lookupDay_cons, if_neg hq, ih, List.mem_cons]
      constructor
      · rintro h p (rfl | hp)
        · exact hq
        · exact h p hp
      · intro h p hp
        exact h p (Or.inr hp)

theorem lookup_none_of_not_mem_keys {m : Roster} {k : Nat}
    (h : k ∉ m.map Prod.fst) : lookupDay m k = none := by
  rw [lookupDay_eq_none_iff]
  intro p hp hpk
  exact h (hpk ▸ List.mem_map_of_mem Prod.fst hp)

theorem lookupDay_mem {m : Roster} {k : Nat} {v : List Entry}
    (h : lookupDay m k = some v) : (k, v) ∈ m := by
  induction m with
  | nil => simp [lookupDay] at h
  | cons p t ih =>
    obtain ⟨q, es⟩ := p
    by_cases hq : q = k
    · subst hq
      rw [lookupDay_cons, if_pos rfl, Option.some.injEq] at h
      subst h
      exact List.mem_cons_self _ _
    · rw [lookupDay_cons, if_neg hq] at h
      exact List.mem_cons_of_mem _ (ih h)

theorem lookupDay_append (m m2 : Roster) (k : Nat) :
    lookupDay (m ++ m2) k =
      match lookupDay m k with
      | some v => some v
      | none => lookupDay m2 k := by
  induction m with
  | nil => simp [lookupDay]
  | cons p t ih =>
    obtain ⟨q, es⟩ := p
    by_cases hq : q = k
    · rw [List.cons_append, lookupDay_cons, lookupDay_cons, if_pos hq, if_pos hq]
    · rw [List.cons_append, lookupDay_cons, lookupDay_cons, if_neg hq, if_neg hq, ih]

theorem lookupDay_setDay_self {m : Roster} {d : Nat} (v : List Entry)
    (h : (lookupDay m d).isSome) : lookupDay (setDay m d v) d = some v := by
  induction m with
  | nil => simp [lookupDay] at h
  | cons p t ih =>
    obtain ⟨q, es⟩ := p
    by_cases hq : q = d
    · rw [setDay_cons, if_pos hq, lookupDay_cons, if_pos rfl]
    · rw [lookupDay_cons, if_neg hq] at h
      rw [setDay_cons, if_neg hq, lookupDay_cons, if_neg hq]
      exact ih h

theorem lookupDay_setDay_ne {m : Roster} {d k : Nat} (v : List Entry)
    (h : k ≠ d) : lookupDay (setDay m d v) k = lookupDay m k := by
  induction m with
  | nil => rfl
  | cons p t ih =>
    obtain ⟨q, es⟩ := p
    by_cases hq : q = d
    · subst hq
      rw [setDay_cons, if_pos rfl, lookupDay_cons, lookupDay_cons,
        if_neg (fun hdk => h hdk.symm), if_neg (fun hdk => h hdk.symm)]
      exact ih
    · by_cases hqk : q = k
      · rw [setDay_cons, if_neg hq, lookupDay_cons, lookupDay_cons, if_pos hqk, if_pos hqk]
      · rw [setDay_cons, if_neg hq, lookupDay_cons, lookupDay_cons, if_neg hqk, if_neg hqk]
        exact ih

theorem lookupDay_eraseDay_self (m : Roster) (d : Nat) :
    lookupDay (eraseDay m d) d = none := by
  rw [lookupDay_eq_none_iff]
  intro p hp
  simp only [eraseDay, List.mem_filter, decide_eq_true_eq] at hp
  exact hp.2

theorem lookupDay_eraseDay_ne {m : Roster} {d k : Nat} (h : k ≠ d) :
    lookupDay (eraseDay m d) k = lookupDay m k := by
  induction m with
  | nil => rfl
  | cons p t ih =>
    obtain ⟨q, es⟩ := p
    by_cases hq : q = d
    · subst hq
      rw [eraseDay_cons, if_pos rfl, lookupDay_cons, if_neg (fun hdk => h hdk.symm)]
      exact ih
    · by_cases hqk : q = k
      · rw [eraseDay_cons, if_neg hq, lookupDay_cons, lookupDay_cons, if_pos hqk, if_pos hqk]
      · rw [eraseDay_cons, if_neg hq, lookupDay_cons, lookupDay_cons, if_neg hqk, if_neg hqk]
        exact ih

theorem keys_setDay (m : Roster) (d : Nat) (v : List Entry) :
    (setDay m d v).map Prod.fst = m.map Prod.fst := by
  induction m with
  | nil => rfl
  | cons p t ih =>
    obtain ⟨q, es⟩ := p
    by_cases hq : q = d
    · rw [setDay_cons, if_pos hq, List.map_cons, List.map_cons, ih, hq]
    · rw [setDay_cons, if_neg hq, List.map_cons, List.map_cons, ih]

theorem nodupKeys_setDay {m : Roster} {d : Nat} {v : List Entry}
    (h : nodupKeys m) : nodupKeys (setDay m d v) := by
  unfold nodupKeys
  rw [keys_setDay]
  exact h

theorem nodupKeys_eraseDay {m : Roster} {d : Nat}
    (h : nodupKeys m) : nodupKeys (eraseDay m d) := by
  unfold nodupKeys at *
  have hsub : (eraseDay m d).map Prod.fst |>.Sublist (m.map Prod.fst) :=
    (List.filter_sublist m).map Prod.fst
  exact h.sublist hsub

theorem setDay_of_lookup_none {m : Roster} {d : Nat} (v : List Entry)
    (h : lookupDay m d = none) : setDay m d v = m := by
  rw [lookupDay_eq_none_iff] at h
  induction m with
  | nil => rfl
  | cons p t ih =>
    obtain ⟨q, es⟩ := p
    rw [setDay_cons, if_neg (h (q, es) (List.mem_cons_self _ _)),
      ih (fun p hp => h p (List.mem_cons_of_mem _ hp))]

theorem setDay_eq_of_lookup {m : Roster} {d : Nat} {v : List Entry}
    (hnd : nodupKeys m) (h : lookupDay m d = some v) : setDay m d v = m := by
  induction m with
  | nil => rfl
  | cons p t ih =>
    obtain ⟨q, es⟩ := p
    by_cases hq : q = d
    · subst hq
      rw [lookupDay_cons, if_pos rfl, Option.some.injEq] at h
      subst h
      have ht : lookupDay t q = none := by
        apply lookup_none_of_not_mem_keys
        unfold nodupKeys at hnd
        simp only [List.map_cons, List.nodup_cons] at hnd
        exact hnd.1
      rw [setDay_cons, if_pos rfl, setDay_of_lookup_none es ht]
    · rw [lookupDay_cons, if_neg hq] at h
      have hnd2 : nodupKeys t := by
        unfold nodupKeys at *
        simp only [List.map_cons, List.nodup_cons] at hnd
        exact hnd.2
      rw [setDay_cons, if_neg hq, ih hnd2 h]

theorem mem_setDay {m : Roster} {d : Nat} {v : List Entry} {p : Nat × List Entry}
    (h : p ∈ setDay m d v) : (p ∈ m ∧ p.1 ≠ d) ∨ p = (d, v) := by
  unfold setDay at h
  obtain ⟨q, hq, hpq⟩ := List.mem_map.mp h
  by_cases hqd : q.1 = d
  · right
    rw [if_pos hqd] at hpq
    exact hpq.symm
  · left
    rw [if_neg hqd] at hpq
    subst hpq
    exact ⟨hq, hqd⟩

theorem mem_eraseDay {m : Roster} {d : Nat} {p : Nat × List Entry}
    (h : p ∈ eraseDay m d) : p ∈ m ∧ p.1 ≠ d := by
  unfold eraseDay at h
  have := List.mem_filter.mp h
  exact ⟨this.1, by simpa using this.2⟩

theorem nodupKeys_append_singleton {m : Roster} {d : Nat} {v : List Entry}
    (hnd : nodupKeys m) (h : lookupDay m d = none) :
    nodupKeys (m ++ [(d, v)]) := by
  unfold nodupKeys at *
  rw [List.map_append]
  apply List.Nodup.append hnd (List.nodup_singleton d)
  intro a ha hb
  simp only [List.map_cons, List.map_nil, List.mem_singleton] at hb
  subst hb
  rw [lookupDay_eq_none_iff] at h
  obtain ⟨p, hp, hpa⟩ := List.mem_map.mp ha
  exact h p hp hpa

theorem lookupDay_append_singleton_ne {m : Roster} {d k : Nat} (v : List Entry)
    (h : k ≠ d) : lookupDay (m ++ [(d, v)]) k = lookupDay m k := by
  rw [lookupDay_append]
  cases hl : lookupDay m k with
  | some w => rfl
  | none =>
    show lookupDay [(d, v)] k = none
    rw [lookupDay_cons, if_neg (fun hdk => h hdk.symm)]
    rfl

theorem lookupDay_append_singleton_self {m : Roster} {d : Nat} (v : List Entry)
    (h : lookupDay m d = none) : lookupDay (m ++ [(d, v)]) d = some v := by
  rw [lookupDay_append, h]
  show lookupDay [(d, v)] d = some v
  rw [lookupDay_cons, if_pos rfl]

/-! ## dateRange lemmas -/

theorem mem_dateRange {startDate endDate k : Nat} :
    k ∈ dateRange startDate endDate ↔ startDate ≤ k ∧ k ≤ endDate := by
  unfold dateRange
  simp only [List.mem_map, List.mem_range]
  constructor
  · rintro ⟨i, hi, rfl⟩
    omega
  · rintro ⟨h1, h2⟩
    exact ⟨k - startDate, by omega, by omega⟩

theorem nodup_dateRange (startDate endDate : Nat) :
    (dateRange startDate endDate).Nodup :=
  (List.nodup_range _).map (fun a b h => by omega)

/-! ## add_schedule: per-day and whole-range characterization -/

theorem lookup_processDay_ne (name : String) (shifts : List Shift)
    (wi : Nat → Option WRule) (st : Nat) {sched : Roster} {d k : Nat}
    (h : k ≠ d) :
    lookupDay (processDay name shifts wi st sched d) k = lookupDay sched k := by
  cases hwi : wi (dayOfWeek d) with
  | none => simp only [processDay, hwi]
  | some r =>
    simp only [processDay, hwi]
    by_cases hr : r.dayChecked = true
    · rw [if_pos hr]
      by_cases hc : containsDay sched d = true
      · rw [if_pos hc, lookupDay_setDay_ne _ h]
      · rw [if_neg hc, lookupDay_setDay_ne _ h, lookupDay_append_singleton_ne _ h]
    · rw [if_neg hr]

theorem lookup_processDay_self (name : String) (shifts : List Shift)
    (wi : Nat → Option WRule) (st : Nat) (sched : Roster) (d : Nat) :
    lookupDay (processDay name shifts wi st sched d) d =
      if enabledOn wi d = true then
        some ((lookupDay sched d).getD [] ++ dayDeltaOf name shifts wi st d)
      else lookupDay sched d := by
  cases hwi : wi (dayOfWeek d) with
  | none => simp only [processDay, enabledOn, dayDeltaOf, hwi, if_neg Bool.false_ne_true]
  | some r =>
    simp only [processDay, enabledOn, dayDeltaOf, hwi]
    by_cases hr : r.dayChecked = true
    · rw [if_pos hr, if_pos hr, if_pos hr]
      by_cases hc : containsDay sched d = true
      · rw [if_pos hc, lookupDay_setDay_self _ hc]
      · rw [if_neg hc]
        have hnone : lookupDay sched d = none :=
          Option.not_isSome_iff_eq_none.mp hc
        have h1 : lookupDay (sched ++ [(d, [])]) d = some [] :=
          lookupDay_append_singleton_self _ hnone
        rw [lookupDay_setDay_self _ (by rw [h1]; rfl), h1, hnone]
        rfl
    · rw [if_neg hr, if_neg hr]

theorem lookup_foldl_processDay (name : String) (shifts : List Shift)
    (wi : Nat → Option WRule) (st : Nat) :
    ∀ (ds : List Nat), ds.Nodup → ∀ (sched : Roster) (k : Nat),
      lookupDay (ds.foldl (processDay name shifts wi st) sched) k =
        if k ∈ ds ∧ enabledOn wi k = true then
          some ((lookupDay sched k).getD [] ++ dayDeltaOf name shifts wi st k)
        else lookupDay sched k := by
  intro ds
  induction ds with
  | nil =>
    intro _ sched k
    simp
  | cons d t ih =>
    intro hnd sched k
    have hndt : t.Nodup := (List.nodup_cons.mp hnd).2
    have hdt : d ∉ t := (List.nodup_cons.mp hnd).1
    rw [List.foldl_cons, ih hndt]
    by_cases hk : k = d
    · subst hk
      rw [if_neg (fun hc => hdt hc.1), lookup_processDay_self]
      by_cases he : enabledOn wi k = true
      · rw [if_pos he, if_pos ⟨List.mem_cons_self _ _, he⟩]
      · rw [if_neg he, if_neg (fun hc => he hc.2)]
    · rw [lookup_processDay_ne _ _ _ _ hk]
      by_cases hkt : k ∈ t
      · by_cases he : enabledOn wi k = true
        · rw [if_pos ⟨hkt, he⟩, if_pos ⟨List.mem_cons_of_mem _ hkt, he⟩]
        · rw [if_neg (fun hc => he hc.2), if_neg (fun hc => he hc.2)]
      · rw [if_neg (fun hc => hkt hc.1),
          if_neg (fun hc => (List.mem_cons.mp hc.1).elim hk hkt)]

/-- The single-key characterization of `add_schedule`: on a day of the
range whose weekday is present and checked it appends exactly
`dayDeltaOf`, anywhere else it leaves the key's binding unchanged. -/
theorem lookup_add_schedule (name : String) (shifts : List Shift)
    (wi : Nat → Option WRule) (st en : Nat) (sched : Roster) (k : Nat) :
    lookupDay (add_schedule name shifts wi st en sched) k =
      if k ∈ dateRange st en ∧ enabledOn wi k = true then
        some ((lookupDay sched k).getD [] ++ dayDeltaOf name shifts wi st k)
      else lookupDay sched k :=
  lookup_foldl_processDay name shifts wi st _ (nodup_dateRange st en) sched k

theorem processDay_not_enabled {wi : Nat → Option WRule} {d : Nat}
    (name : String) (shifts : List Shift) (st : Nat) (sched : Roster)
    (h : enabledOn wi d = false) :
    processDay name shifts wi st sched d = sched := by
  unfold enabledOn at h
  cases hwi : wi (dayOfWeek d) with
  | none => simp only [processDay, hwi]
  | some r =>
    simp only [hwi] at h
    simp only [processDay, hwi, if_neg (by simp [h] : ¬ r.dayChecked = true)]

/-! ## delete_schedule characterization -/

theorem lookup_deleteDay_ne (name : String) {sched : Roster} {d k : Nat}
    (h : k ≠ d) :
    lookupDay (deleteDay name sched d) k = lookupDay sched k := by
  cases hl : lookupDay sched d with
  | none => simp only [deleteDay, hl]
  | some es =>
    simp only [deleteDay, hl]
    by_cases he : (es.filter (fun e => decide (e.name ≠ name))).isEmpty = true
    · rw [if_pos he, lookupDay_eraseDay_ne h, lookupDay_setDay_ne _ h]
    · rw [if_neg he, lookupDay_setDay_ne _ h]

theorem lookup_deleteDay_self (name : String) (sched : Roster) (d : Nat) :
    lookupDay (deleteDay name sched d) d = delResult name (lookupDay sched d) := by
  cases hl : lookupDay sched d with
  | none => simp only [deleteDay, hl, delResult]
  | some es =>
    simp only [deleteDay, hl, delResult]
    by_cases he : (es.filter (fun e => decide (e.name ≠ name))).isEmpty = true
    · rw [if_pos he, if_pos he, lookupDay_eraseDay_self]
    · rw [if_neg he, if_neg he, lookupDay_setDay_self _ (by rw [hl]; rfl)]

theorem lookup_foldl_deleteDay (name : String) :
    ∀ (ds : List Nat), ds.Nodup → ∀ (sched : Roster) (k : Nat),
      lookupDay (ds.foldl (deleteDay name) sched) k =
        if k ∈ ds then delResult name (lookupDay sched k) else lookupDay sched k := by
  intro ds
  induction ds with
  | nil =>
    intro _ sched k
    simp
  | cons d t ih =>
    intro hnd sched k
    have hndt : t.Nodup := (List.nodup_cons.mp hnd).2
    have hdt : d ∉ t := (List.nodup_cons.mp hnd).1
    rw [List.foldl_cons, ih hndt]
    by_cases hk : k = d
    · subst hk
      rw [if_neg hdt, lookup_deleteDay_self, if_pos (List.mem_cons_self _ _)]
    · rw [lookup_deleteDay_ne _ hk]
      by_cases hkt : k ∈ t
      · rw [if_pos hkt, if_pos (List.mem_cons_of_mem _ hkt)]
      · rw [if_neg hkt, if_neg (fun hc => (List.mem_cons.mp hc).elim hk hkt)]

theorem lookup_delete_schedule (name : String) (st en : Nat) (sched : Roster)
    (k : Nat) :
    lookupDay (delete_schedule name st en sched) k =
      if k ∈ dateRange st en then delResult name (lookupDay sched k)
      else lookupDay sched k :=
  lookup_foldl_deleteDay name _ (nodup_dateRange st en) sched k

theorem nodupKeys_deleteDay (name : String) {sched : Roster} (d : Nat)
    (h : nodupKeys sched) : nodupKeys (deleteDay name sched d) := by
  cases hl : lookupDay sched d with
  | none => simpa only [deleteDay, hl] using h
  | some es =>
    simp only [deleteDay, hl]
    by_cases he : (es.filter (fun e => decide (e.name ≠ name))).isEmpty = true
    · rw [if_pos he]
      exact nodupKeys_eraseDay (nodupKeys_setDay h)
    · rw [if_neg he]
      exact nodupKeys_setDay h

theorem nodupKeys_foldl_deleteDay (name : String) :
    ∀ (ds : List Nat) (sched : Roster), nodupKeys sched →
      nodupKeys (ds.foldl (deleteDay name) sched) := by
  intro ds
  induction ds with
  | nil => intro sched h; exact h
  | cons d t ih =>
    intro sched h
    rw [List.foldl_cons]
    exact ih _ (nodupKeys_deleteDay name d h)

theorem foldl_fixed (step : Roster → Nat → Roster) :
    ∀ (ds : List Nat) (m : Roster), (∀ d ∈ ds, step m d = m) →
      ds.foldl step m = m := by
  intro ds
  induction ds with
  | nil => intro m _; rfl
  | cons d t ih =>
    intro m h
    rw [List.foldl_cons, h d (List.mem_cons_self _ _)]
    exact ih m (fun e he => h e (List.mem_cons_of_mem _ he))

theorem filter_name_idem (name : String) (es : List Entry) :
    (es.filter (fun e => decide (e.name ≠ name))).filter
        (fun e => decide (e.name ≠ name)) =
      es.filter (fun e => decide (e.name ≠ name)) := by
  induction es with
  | nil => rfl
  | cons a t ih =>
    by_cases ha : a.name = name
    · simp [List.filter_cons, ha, ih]
    · simp [List.filter_cons, ha, ih]

theorem deleteDay_eq_self (name : String) {m : Roster} {d : Nat}
    (hnd : nodupKeys m)
    (h : ∀ es, lookupDay m d = some es →
      es.filter (fun e => decide (e.name ≠ name)) = es ∧ es.isEmpty = false) :
    deleteDay name m d = m := by
  cases hl : lookupDay m d with
  | none => simp only [deleteDay, hl]
  | some es =>
    obtain ⟨hf, hne⟩ := h es hl
    simp only [deleteDay, hl, hf, hne]
    rw [if_neg Bool.false_ne_true]
    exact setDay_eq_of_lookup hnd hl

/-! ## The no-empty-key invariant -/

theorem ne_nil_of_isEmpty_eq_false {α : Type} {l : List α}
    (h : l.isEmpty = false) : l ≠ [] := by
  cases l with
  | nil => simp [List.isEmpty] at h
  | cons a t => exact List.cons_ne_nil a t

theorem isEmpty_eq_false_of_ne_nil {α : Type} {l : List α}
    (h : l ≠ []) : l.isEmpty = false := by
  cases l with
  | nil => exact absurd rfl h
  | cons a t => rfl

theorem dayDelta_ne_nil {name : String} {shifts : List Shift} {r : WRule}
    {st d : Nat} (hs : shifts ≠ []) : dayDelta name shifts r st d ≠ [] := by
  by_cases hb : r.biweeklyChecked = true
  · simp only [dayDelta, if_pos hb]
    exact List.cons_ne_nil _ _
  · simp only [dayDelta, if_neg hb]
    intro hcon
    exact hs (List.map_eq_nil_iff.mp hcon)

theorem noEmptyDay_processDay (name : String) {shifts : List Shift}
    (wi : Nat → Option WRule) (st : Nat) {sched : Roster} (d : Nat)
    (hs : shifts ≠ []) (h : noEmptyDay sched) :
    noEmptyDay (processDay name shifts wi st sched d) := by
  cases hwi : wi (dayOfWeek d) with
  | none => simpa only [processDay, hwi] using h
  | some r =>
    simp only [processDay, hwi]
    by_cases hr : r.dayChecked = true
    · rw [if_pos hr]
      intro p hp
      rcases mem_setDay hp with ⟨hpm, hpne⟩ | rfl
      · by_cases hc : containsDay sched d = true
        · rw [if_pos hc] at hpm
          exact h p hpm
        · rw [if_neg hc] at hpm
          rcases List.mem_append.mp hpm with hmem | hmem
          · exact h p hmem
          · rw [List.mem_singleton] at hmem
            exact absurd (by rw [hmem]) hpne
      · show _ ≠ ([] : List Entry)
        intro hcon
        exact dayDelta_ne_nil hs (List.append_eq_nil.mp hcon).2
    · rw [if_neg hr]
      exact h

theorem noEmptyDay_add_schedule (name : String) {shifts : List Shift}
    (wi : Nat → Option WRule) (st en : Nat) {sched : Roster}
    (hs : shifts ≠ []) (h : noEmptyDay sched) :
    noEmptyDay (add_schedule name shifts wi st en sched) := by
  unfold add_schedule
  generalize dateRange st en = ds
  induction ds generalizing sched with
  | nil => exact h
  | cons d t ih =>
    rw [List.foldl_cons]
    exact ih (noEmptyDay_processDay name wi st d hs h)

theorem noEmptyDay_deleteDay (name : String) {sched : Roster} (d : Nat)
    (h : noEmptyDay sched) : noEmptyDay (deleteDay name sched d) := by
  cases hl : lookupDay sched d with
  | none => simpa only [deleteDay, hl] using h
  | some es =>
    simp only [deleteDay, hl]
    by_cases he : (es.filter (fun e => decide (e.name ≠ name))).isEmpty = true
    · rw [if_pos he]
      intro p hp
      have hm := mem_eraseDay hp
      rcases mem_setDay hm.1 with ⟨hpm, _⟩ | rfl
      · exact h p hpm
      · exact absurd rfl hm.2
    · rw [if_neg he]
      intro p hp
      rcases mem_setDay hp with ⟨hpm, _⟩ | rfl
      · exact h p hpm
      · exact ne_nil_of_isEmpty_eq_false (Bool.not_eq_true _ ▸ he)

theorem noEmptyDay_delete_schedule (name : String) (st en : Nat)
    {sched : Roster} (h : noEmptyDay sched) :
    noEmptyDay (delete_schedule name st en sched) := by
  unfold delete_schedule
  generalize dateRange st en = ds
  induction ds generalizing sched with
  | nil => exact h
  | cons d t ih =>
    rw [List.foldl_cons]
    exact ih (noEmptyDay_deleteDay name d h)

/-! ## toggle_shift lemmas -/

theorem toggleAll_length :
    ∀ (idxs : List Nat) (es es2 : List Entry),
      toggleAll es idxs = some es2 → es2.length = es.length := by
  intro idxs
  induction idxs with
  | nil =>
    intro es es2 h
    simp only [toggleAll, Option.some.injEq] at h
    rw [h]
  | cons i t ih =>
    intro es es2 h
    simp only [toggleAll] at h
    cases hi : toggleEntryAt es i with
    | none =>
      rw [hi] at h
      exact absurd h (by simp)
    | some es1 =>
      rw [hi] at h
      have h1 : es1.length = es.length := by
        unfold toggleEntryAt at hi
        cases hg : es[i]? with
        | none =>
          rw [hg] at hi
          exact absurd hi (by simp)
        | some e =>
          rw [hg] at hi
          simp only [Option.some.injEq] at hi
          rw [← hi, List.length_set]
      rw [ih es1 es2 h, h1]

theorem noEmptyDay_toggle_shift {sched : Roster} {d : Nat} {idxs : List Nat}
    {out : Roster × Bool} (h : noEmptyDay sched)
    (ht : toggle_shift sched d idxs = some out) : noEmptyDay out.1 := by
  unfold toggle_shift at ht
  cases hl : lookupDay sched d with
  | none =>
    simp only [hl, Option.some.injEq] at ht
    rw [← ht]
    exact h
  | some es =>
    simp only [hl] at ht
    cases hta : toggleAll es idxs with
    | none =>
      simp only [hta] at ht
      exact absurd ht (by simp)
    | some es1 =>
      simp only [hta, Option.some.injEq] at ht
      rw [← ht]
      intro p hp
      rcases mem_setDay hp with ⟨hpm, _⟩ | rfl
      · exact h p hpm
      · show es1 ≠ []
        intro hcon
        have hlen := toggleAll_length idxs es es1 hta
        rw [hcon] at hlen
        have hes : es ≠ [] := h (d, es) (lookupDay_mem hl)
        cases es with
        | nil => exact hes rfl
        | cons a t => simp at hlen

/-! ## removeEntries lemmas -/

theorem noEmptyDay_removeEntries {sched : Roster} (d : Nat) (idxs : List Nat)
    (h : noEmptyDay sched) : noEmptyDay (removeEntries sched d idxs) := by
  cases hl : lookupDay sched d with
  | none => simpa only [removeEntries, hl] using h
  | some es =>
    simp only [removeEntries, hl]
    by_cases hie : idxs.isEmpty = true
    · rw [if_pos hie]
      exact h
    · rw [if_neg hie]
      by_cases he : (removeIndices es idxs).isEmpty = true
      · rw [if_pos he]
        intro p hp
        have hm := mem_eraseDay hp
        rcases mem_setDay hm.1 with ⟨hpm, _⟩ | rfl
        · exact h p hpm
        · exact absurd rfl hm.2
      · rw [if_neg he]
        intro p hp
        rcases mem_setDay hp with ⟨hpm, _⟩ | rfl
        · exact h p hpm
        · exact ne_nil_of_isEmpty_eq_false (Bool.not_eq_true _ ▸ he)

theorem insertDesc_perm (i : Nat) (l : List Nat) :
    (insertDesc i l).Perm (i :: l) := by
  induction l with
  | nil => exact List.Perm.refl _
  | cons j t ih =>
    unfold insertDesc
    by_cases hj : j ≤ i
    · rw [if_pos hj]
    · rw [if_neg hj]
      exact (ih.cons j).trans (List.Perm.swap i j t)

theorem sortDesc_perm (l : List Nat) : (sortDesc l).Perm l := by
  induction l with
  | nil => exact List.Perm.refl _
  | cons i t ih =>
    unfold sortDesc
    exact (insertDesc_perm i (sortDesc t)).trans (ih.cons i)

theorem insertDesc_sorted {i : Nat} {l : List Nat}
    (h : l.Pairwise (fun a b => b ≤ a)) :
    (insertDesc i l).Pairwise (fun a b => b ≤ a) := by
  induction l with
  | nil => simp [insertDesc]
  | cons j t ih =>
    obtain ⟨hj, ht⟩ := List.pairwise_cons.mp h
    unfold insertDesc
    by_cases hji : j ≤ i
    · rw [if_pos hji]
      refine List.pairwise_cons.mpr ⟨?_, h⟩
      intro b hb
      rcases List.mem_cons.mp hb with rfl | hbt
      · exact hji
      · exact le_trans (hj b hbt) hji
    · rw [if_neg hji]
      refine List.pairwise_cons.mpr ⟨?_, ih ht⟩
      intro b hb
      rcases List.mem_cons.mp ((insertDesc_perm i t).mem_iff.mp hb) with rfl | hbt
      · omega
      · exact hj b hbt

theorem sortDesc_sorted (l : List Nat) :
    (sortDesc l).Pairwise (fun a b => b ≤ a) := by
  induction l with
  | nil => exact List.Pairwise.nil
  | cons i t ih => exact insertDesc_sorted ih

theorem sortDesc_strict {l : List Nat} (h : l.Nodup) :
    (sortDesc l).Pairwise (fun a b => b < a) := by
  have hs := sortDesc_sorted l
  have hn : (sortDesc l).Nodup := (sortDesc_perm l).nodup_iff.mpr h
  exact (hs.and hn).imp
    (fun hab => Nat.lt_of_le_of_ne hab.1 (fun hba => hab.2 hba.symm))

theorem specSurvivors_cons (idxs : List Nat) (pos : Nat) (e : Entry)
    (t : List Entry) :
    specSurvivors idxs pos (e :: t) =
      if pos ∈ idxs then specSurvivors idxs (pos + 1) t
      else e :: specSurvivors idxs (pos + 1) t := rfl

theorem specSurvivors_congr {idxs idxs2 : List Nat}
    (h : ∀ p, p ∈ idxs ↔ p ∈ idxs2) :
    ∀ (n : Nat) (l : List Entry),
      specSurvivors idxs n l = specSurvivors idxs2 n l := by
  intro n l
  induction l generalizing n with
  | nil => rfl
  | cons e t ih =>
    unfold specSurvivors
    by_cases hn : n ∈ idxs
    · rw [if_pos hn, if_pos ((h n).mp hn), ih]
    · rw [if_neg hn, if_neg (fun hc => hn ((h n).mpr hc)), ih]

theorem specSurvivors_of_all_lt {idxs : List Nat} :
    ∀ (n : Nat) (l : List Entry), (∀ j ∈ idxs, j < n) →
      specSurvivors idxs n l = l := by
  intro n l
  induction l generalizing n with
  | nil => intro _; rfl
  | cons e t ih =>
    intro hlt
    unfold specSurvivors
    rw [if_neg (fun hc => absurd (hlt n hc) (lt_irrefl n)),
      ih (n + 1) (fun j hj => Nat.lt_succ_of_lt (hlt j hj))]

theorem specSurvivors_eraseIdx (rest : List Nat) :
    ∀ (l : List Entry) (n i : Nat), i < l.length → (∀ j ∈ rest, j < n + i) →
      specSurvivors rest n (l.eraseIdx i) =
        specSurvivors ((n + i) :: rest) n l := by
  intro l
  induction l with
  | nil =>
    intro n i hi
    simp at hi
  | cons a t ih =>
    intro n i hi hrest
    cases i with
    | zero =>
      rw [Nat.add_zero]
      show specSurvivors rest n t = specSurvivors (n :: rest) n (a :: t)
      rw [specSurvivors_cons, if_pos (List.mem_cons_self _ _)]
      rw [specSurvivors_of_all_lt n t (fun j hj => by
        have := hrest j hj; omega)]
      rw [specSurvivors_of_all_lt (n + 1) t (fun j hj => by
        rcases List.mem_cons.mp hj with rfl | hj2
        · omega
        · have := hrest j hj2; omega)]
    | succ i2 =>
      have hm : n ∈ (n + (i2 + 1)) :: rest ↔ n ∈ rest := by
        constructor
        · intro hc
          rcases List.mem_cons.mp hc with he | hc2
          · omega
          · exact hc2
        · exact fun hc => List.mem_cons_of_mem _ hc
      show specSurvivors rest n (a :: t.eraseIdx i2) =
        specSurvivors ((n + (i2 + 1)) :: rest) n (a :: t)
      have hih : specSurvivors rest (n + 1) (t.eraseIdx i2) =
          specSurvivors ((n + (i2 + 1)) :: rest) (n + 1) t := by
        have h2 := ih (n + 1) i2 (by simpa using hi)
          (fun j hj => by have := hrest j hj; omega)
        rwa [show n + 1 + i2 = n + (i2 + 1) from by omega] at h2
      by_cases hn : n ∈ rest
      · rw [specSurvivors_cons, specSurvivors_cons, if_pos hn,
          if_pos (hm.mpr hn), hih]
      · rw [specSurvivors_cons, specSurvivors_cons, if_neg hn,
          if_neg (fun hc => hn (hm.mp hc)), hih]

theorem foldl_eraseIdx_eq_specSurvivors :
    ∀ (idxs : List Nat), idxs.Pairwise (fun a b => b < a) →
      ∀ (l : List Entry), (∀ i ∈ idxs, i < l.length) →
        idxs.foldl (fun acc i => acc.eraseIdx i) l = specSurvivors idxs 0 l := by
  intro idxs
  induction idxs with
  | nil =>
    intro _ l _
    rw [List.foldl_nil]
    exact (specSurvivors_of_all_lt 0 l (by simp)).symm
  | cons i rest ih =>
    intro hp l hbound
    obtain ⟨hlt, hrest⟩ := List.pairwise_cons.mp hp
    have hi : i < l.length := hbound i (List.mem_cons_self _ _)
    have hb2 : ∀ j ∈ rest, j < (l.eraseIdx i).length := by
      intro j hj
      rw [List.length_eraseIdx_of_lt hi]
      have := hlt j hj
      omega
    rw [List.foldl_cons, ih hrest _ hb2]
    have h2 := specSurvivors_eraseIdx rest l 0 i hi (by simpa using hlt)
    rwa [Nat.zero_add] at h2

theorem removeIndices_eq_specSurvivors {es : List Entry} {idxs : List Nat}
    (hnd : idxs.Nodup) (hb : ∀ i ∈ idxs, i < es.length) :
    removeIndices es idxs = specSurvivors idxs 0 es := by
  unfold removeIndices
  rw [foldl_eraseIdx_eq_specSurvivors (sortDesc idxs) (sortDesc_strict hnd) es
    (fun i hi => hb i ((sortDesc_perm idxs).mem_iff.mp hi))]
  exact specSurvivors_congr (fun p => (sortDesc_perm idxs).mem_iff) 0 es

/-! ## save/load round-trip machinery -/

theorem rowsOf_cons (q : Nat) (vs : List Entry) (t : Roster) :
    rowsOf ((q, vs) :: t) = vs.map (rowOf q) ++ rowsOf t := by
  simp [rowsOf]

theorem rowsOf_append (m m2 : Roster) :
    rowsOf (m ++ m2) = rowsOf m ++ rowsOf m2 := by
  simp [rowsOf]

theorem nodupKeys_cons {q : Nat} {vs : List Entry} {t : Roster}
    (h : nodupKeys ((q, vs) :: t)) :
    lookupDay t q = none ∧ nodupKeys t := by
  unfold nodupKeys at h
  simp only [List.map_cons, List.nodup_cons] at h
  exact ⟨lookup_none_of_not_mem_keys h.1, h.2⟩

theorem rowsOf_setDay_append (e : Entry) :
    ∀ (m : Roster) (d : Nat) (es : List Entry), nodupKeys m →
      lookupDay m d = some es →
      (rowsOf (setDay m d (es ++ [e]))).Perm (rowsOf m ++ [rowOf d e]) := by
  intro m
  induction m with
  | nil =>
    intro d es _ h
    simp [lookupDay] at h
  | cons p t ih =>
    intro d es hnd hl
    obtain ⟨q, vs⟩ := p
    by_cases hq : q = d
    · subst hq
      rw [lookupDay_cons, if_pos rfl, Option.some.injEq] at hl
      subst hl
      rw [setDay_cons, if_pos rfl,
        setDay_of_lookup_none _ (nodupKeys_cons hnd).1]
      rw [rowsOf_cons, rowsOf_cons, List.map_append]
      rw [List.append_assoc, List.append_assoc]
      exact List.Perm.append_left _ List.perm_append_comm
    · rw [setDay_cons, if_neg hq, rowsOf_cons, rowsOf_cons, List.append_assoc]
      rw [lookupDay_cons, if_neg hq] at hl
      exact List.Perm.append_left _ (ih d es (nodupKeys_cons hnd).2 hl)

theorem setDay_append_singleton {m : Roster} {d : Nat} (w v : List Entry)
    (h : lookupDay m d = none) :
    setDay (m ++ [(d, w)]) d v = m ++ [(d, v)] := by
  show List.map _ (m ++ [(d, w)]) = m ++ [(d, v)]
  rw [List.map_append]
  have h1 : List.map (fun p => if p.1 = d then (d, v) else p) m = m :=
    setDay_of_lookup_none v h
  rw [h1]
  simp

theorem rowsOf_loadRow {m : Roster} {r : RawRow} {d : Nat}
    (hnd : nodupKeys m) (hd : r.date = some d) :
    (rowsOf (loadRow true true m r)).Perm (rowsOf m ++ [r]) := by
  obtain ⟨rdate, rname, rshift, rabs, rtar⟩ := r
  simp only at hd
  subst hd
  simp only [loadRow, if_pos rfl]
  by_cases hc : containsDay m d = true
  · rw [if_pos hc]
    obtain ⟨es, hes⟩ := Option.isSome_iff_exists.mp hc
    rw [hes]
    have step := rowsOf_setDay_append ⟨rname, rshift, rabs, rtar⟩ m d es hnd hes
    simpa [rowOf] using step
  · rw [if_neg hc]
    have hnone : lookupDay m d = none := Option.not_isSome_iff_eq_none.mp hc
    rw [lookupDay_append_singleton_self _ hnone,
      setDay_append_singleton _ _ hnone, rowsOf_append]
    simp [rowsOf, rowOf]

theorem nodupKeys_loadRow (hA hB : Bool) {m : Roster} (r : RawRow)
    (h : nodupKeys m) : nodupKeys (loadRow hA hB m r) := by
  cases hd : r.date with
  | none => simpa only [loadRow, hd] using h
  | some d =>
    simp only [loadRow, hd]
    by_cases hc : containsDay m d = true
    · rw [if_pos hc]
      exact nodupKeys_setDay h
    · rw [if_neg hc]
      exact nodupKeys_setDay
        (nodupKeys_append_singleton h (Option.not_isSome_iff_eq_none.mp hc))

theorem rowsOf_foldl_loadRow :
    ∀ (rs : List RawRow) (m : Roster), nodupKeys m →
      (∀ r ∈ rs, (r.date).isSome = true) →
      (rowsOf (rs.foldl (loadRow true true) m)).Perm (rowsOf m ++ rs) := by
  intro rs
  induction rs with
  | nil =>
    intro m _ _
    simp
  | cons r t ih =>
    intro m hnd hdates
    rw [List.foldl_cons]
    obtain ⟨d, hd2⟩ :=
      Option.isSome_iff_exists.mp (hdates r (List.mem_cons_self _ _))
    have ihh := ih (loadRow true true m r) (nodupKeys_loadRow _ _ r hnd)
      (fun r2 h2 => hdates r2 (List.mem_cons_of_mem _ h2))
    refine ihh.trans ?_
    refine ((rowsOf_loadRow hnd hd2).append_right t).trans ?_
    rw [List.append_assoc, List.singleton_append]

/-! ## Claim theorems -/

/-- C1: for every add request with a weekday whose bi-weekly flag is set
and every date `k` of the inclusive range matching that weekday,
`add_schedule` appends exactly one entry whose shift is the base shift
when `(julianDay k - julianDay start) / 7` is even and the AM/PM-swapped
shift when odd; in particular the Monday-only bi-weekly base-AM rule over
a range whose first day is its first Monday and spanning four Mondays
yields the shifts AM, PM, AM, PM in chronological order. -/
theorem add_schedule_biweekly_parity :
    (∀ (name : String) (shifts : List Shift) (wi : Nat → Option WRule)
        (st en : Nat) (sched : Roster) (k : Nat) (r : WRule),
      k ∈ dateRange st en → wi (dayOfWeek k) = some r →
      r.dayChecked = true → r.biweeklyChecked = true →
      lookupDay (add_schedule name shifts wi st en sched) k =
        some ((lookupDay sched k).getD [] ++
          [⟨name, if (k - st) / 7 % 2 = 0 then r.biweeklyBase
                  else r.biweeklyBase.other, false, false⟩]))
    ∧ add_schedule "kim" [] wiMonBi 7 28 [] =
        [(7, [⟨"kim", Shift.AM, false, false⟩]),
         (14, [⟨"kim", Shift.PM, false, false⟩]),
         (21, [⟨"kim", Shift.AM, false, false⟩]),
         (28, [⟨"kim", Shift.PM, false, false⟩])] := by
  constructor
  · intro name shifts wi st en sched k r hk hwi hday hbi
    rw [lookup_add_schedule,
      if_pos ⟨hk, by unfold enabledOn; rw [hwi]; exact hday⟩]
    simp only [dayDeltaOf, hwi, if_pos hday, dayDelta, if_pos hbi]
  · rfl

/-- Witness for C1 at the second Monday of the concrete rule. -/
theorem add_schedule_biweekly_parity_witness :
    lookupDay (add_schedule "kim" [] wiMonBi 7 28 []) 14 =
      some ((lookupDay ([] : Roster) 14).getD [] ++
        [⟨"kim", if (14 - 7) / 7 % 2 = 0 then Shift.AM else Shift.AM.other,
          false, false⟩]) :=
  add_schedule_biweekly_parity.1 "kim" [] wiMonBi 7 28 [] 14
    ⟨true, true, Shift.AM⟩ (by decide) rfl rfl rfl

/-- C6: for every date of the range whose weekday is enabled and not
bi-weekly, `add_schedule` appends exactly one entry per shift of the
global shift list, each with the given name and absent = tardy = false;
in particular the Tuesday rule with shifts AM and PM over a range with
exactly one Tuesday leaves that date with exactly those two entries. -/
theorem add_schedule_fanout :
    (∀ (name : String) (shifts : List Shift) (wi : Nat → Option WRule)
        (st en : Nat) (sched : Roster) (k : Nat) (r : WRule),
      k ∈ dateRange st en → wi (dayOfWeek k) = some r →
      r.dayChecked = true → r.biweeklyChecked = false →
      lookupDay (add_schedule name shifts wi st en sched) k =
        some ((lookupDay sched k).getD [] ++
          shifts.map (fun s => ⟨name, s, false, false⟩)))
    ∧ add_schedule "kim" [Shift.AM, Shift.PM] wiTue 6 12 [] =
        [(8, [⟨"kim", Shift.AM, false, false⟩,
              ⟨"kim", Shift.PM, false, false⟩])] := by
  constructor
  · intro name shifts wi st en sched k r hk hwi hday hbi
    rw [lookup_add_schedule,
      if_pos ⟨hk, by unfold enabledOn; rw [hwi]; exact hday⟩]
    simp only [dayDeltaOf, hwi, if_pos hday, dayDelta, hbi]
    rw [if_neg Bool.false_ne_true]
  · rfl

/-- Witness for C6 at the lone Tuesday of the concrete rule. -/
theorem add_schedule_fanout_witness :
    lookupDay (add_schedule "kim" [Shift.AM, Shift.PM] wiTue 6 12 []) 8 =
      some ((lookupDay ([] : Roster) 8).getD [] ++
        [Shift.AM, Shift.PM].map (fun s => ⟨"kim", s, false, false⟩)) :=
  add_schedule_fanout.1 "kim" [Shift.AM, Shift.PM] wiTue 6 12 [] 8
    ⟨true, false, Shift.AM⟩ (by decide) rfl rfl rfl

/-- C8: a degenerate rule selecting zero weekdays makes `add_schedule` a
no-op on the in-memory roster over any range (and it is total, hence
raises nothing). -/
theorem add_schedule_noop_no_weekday (name : String) (shifts : List Shift)
    (wi : Nat → Option WRule) (st en : Nat) (sched : Roster)
    (h : ∀ w r, wi w = some r → r.dayChecked = false) :
    add_schedule name shifts wi st en sched = sched := by
  unfold add_schedule
  apply foldl_fixed
  intro d _
  apply processDay_not_enabled
  cases hw : wi (dayOfWeek d) with
  | none => simp [enabledOn, hw]
  | some r => simp [enabledOn, hw, h _ r hw]

/-- Witness for C8: all seven checkboxes unchecked. -/
theorem add_schedule_noop_no_weekday_witness :
    add_schedule "kim" [Shift.AM] wiNone 7 20 rosterAB = rosterAB :=
  add_schedule_noop_no_weekday "kim" [Shift.AM] wiNone 7 20 rosterAB
    (fun w r hw => by
      simp only [wiNone, Option.some.injEq] at hw
      rw [← hw])

/-- C10: `toggle_shift` on a date whose key is absent from the roster is a
complete silent no-op for every index list: the roster is unchanged, no
IndexError can occur, and the save step is skipped (the `false` flag). -/
theorem toggle_shift_missing_date (sched : Roster) (date : Nat)
    (indices : List Nat) (h : lookupDay sched date = none) :
    toggle_shift sched date indices = some (sched, false) := by
  simp only [toggle_shift, h]

/-- Witness for C10 at a date with no entries, with an out-of-range index
list that would fault on a present date. -/
theorem toggle_shift_missing_date_witness :
    toggle_shift rosterAB 100 [0, 5] = some (rosterAB, false) :=
  toggle_shift_missing_date rosterAB 100 [0, 5] rfl

/-- C2 counterexample: an `add_schedule` call with an enabled weekday,
bi-weekly unset and an empty global shift list creates the date's key and
appends nothing, leaving an empty-list key — the invariant does not hold
for every input. -/
theorem add_schedule_empty_shifts_empty_key :
    add_schedule "kim" [] wiMon 7 7 [] = [(7, [])] ∧
    ¬ noEmptyDay [(7, ([] : List Entry))] := by
  refine ⟨rfl, fun h => ?_⟩
  exact h (7, []) (List.mem_singleton.mpr rfl) rfl

/-- C2 (amended): `delete_schedule`, `toggle_shift` and `removeEntries`
preserve the no-empty-key invariant on every input, and `add_schedule`
preserves it whenever the global shift list is nonempty (the counterexample
forces excluding the empty-globalShifts case). -/
theorem store_ops_preserve_noEmptyDay :
    (∀ (name : String) (shifts : List Shift) (wi : Nat → Option WRule)
        (st en : Nat) (sched : Roster), shifts ≠ [] → noEmptyDay sched →
      noEmptyDay (add_schedule name shifts wi st en sched))
    ∧ (∀ (name : String) (st en : Nat) (sched : Roster), noEmptyDay sched →
      noEmptyDay (delete_schedule name st en sched))
    ∧ (∀ (sched : Roster) (d : Nat) (idxs : List Nat) (out : Roster × Bool),
      noEmptyDay sched → toggle_shift sched d idxs = some out →
      noEmptyDay out.1)
    ∧ (∀ (sched : Roster) (d : Nat) (idxs : List Nat), noEmptyDay sched →
      noEmptyDay (removeEntries sched d idxs)) :=
  ⟨fun name _ wi st en _ hs h => noEmptyDay_add_schedule name wi st en hs h,
   fun name st en _ h => noEmptyDay_delete_schedule name st en h,
   fun _ _ _ _ h ht => noEmptyDay_toggle_shift h ht,
   fun _ d idxs h => noEmptyDay_removeEntries d idxs h⟩

/-- Witness for C2 (amended), one concrete instance per operation. -/
theorem store_ops_preserve_noEmptyDay_witness :
    noEmptyDay (add_schedule "kim" [Shift.AM] wiMon 7 8 rosterAB) ∧
    noEmptyDay (delete_schedule "a" 7 9 rosterAB) ∧
    noEmptyDay ((setDay rosterAB 7
      [⟨"a", Shift.PM, false, false⟩, ⟨"b", Shift.PM, false, false⟩],
        true) : Roster × Bool).1 ∧
    noEmptyDay (removeEntries rosterAB 7 [0]) :=
  ⟨store_ops_preserve_noEmptyDay.1 "kim" [Shift.AM] wiMon 7 8 rosterAB
      (by decide) (by decide),
   store_ops_preserve_noEmptyDay.2.1 "a" 7 9 rosterAB (by decide),
   store_ops_preserve_noEmptyDay.2.2.1 rosterAB 7 [0]
      (setDay rosterAB 7
        [⟨"a", Shift.PM, false, false⟩, ⟨"b", Shift.PM, false, false⟩], true)
      (by decide) (by decide),
   store_ops_preserve_noEmptyDay.2.2.2 rosterAB 7 [0] (by decide)⟩

/-- C3: `load_schedule` alone would load a legacy 3-column file with
absent/tardy defaulted to false, but the startup pipeline first runs
`ensure_excel_file`, which recreates any file lacking the absent/tardy
columns as an empty 5-column file, so the legacy rows are lost. -/
theorem ensure_wipes_legacy_rows :
    load_schedule (ensure_excel_file legacyTable) = [] ∧
    load_schedule legacyTable = [(7, [⟨"kim", Shift.AM, false, false⟩])] :=
  ⟨rfl, rfl⟩

/-- C5: deleting a name over a range twice equals deleting once, and
deleting a name with no entry in the range (on a roster satisfying the
data-model invariant) is a no-op; both need the dict's key uniqueness. -/
theorem delete_schedule_idem (name : String) (st en : Nat) (sched : Roster)
    (hnd : nodupKeys sched) :
    delete_schedule name st en (delete_schedule name st en sched) =
      delete_schedule name st en sched ∧
    (noEmptyDay sched →
      (∀ k ∈ dateRange st en, ∀ e ∈ (lookupDay sched k).getD [],
        e.name ≠ name) →
      delete_schedule name st en sched = sched) := by
  constructor
  · have hnd1 : nodupKeys (delete_schedule name st en sched) :=
      nodupKeys_foldl_deleteDay name _ sched hnd
    unfold delete_schedule
    apply foldl_fixed
    intro d hd
    apply deleteDay_eq_self name hnd1
    intro es hes
    have hchar := lookup_delete_schedule name st en sched d
    rw [hes, if_pos hd] at hchar
    cases hl : lookupDay sched d with
    | none =>
      rw [hl] at hchar
      simp [delResult] at hchar
    | some es0 =>
      rw [hl] at hchar
      simp only [delResult] at hchar
      by_cases hf : (es0.filter (fun e => decide (e.name ≠ name))).isEmpty = true
      · rw [if_pos hf] at hchar
        exact absurd hchar (by simp)
      · rw [if_neg hf] at hchar
        obtain rfl := (Option.some.injEq _ _).mp hchar
        exact ⟨filter_name_idem name es0, Bool.not_eq_true _ ▸ hf⟩
  · intro hinv hnone
    unfold delete_schedule
    apply foldl_fixed
    intro d hd
    apply deleteDay_eq_self name hnd
    intro es hes
    constructor
    · apply List.filter_eq_self.mpr
      intro a ha
      apply decide_eq_true
      have := hnone d hd a
      rw [hes] at this
      exact this ha
    · exact isEmpty_eq_false_of_ne_nil (hinv (d, es) (lookupDay_mem hes))

/-- Witness for C5: idempotence for a present name, no-op for an absent
name. -/
theorem delete_schedule_idem_witness :
    (delete_schedule "a" 6 9 (delete_schedule "a" 6 9 rosterAB) =
      delete_schedule "a" 6 9 rosterAB) ∧
    delete_schedule "zz" 6 9 rosterAB = rosterAB :=
  ⟨(delete_schedule_idem "a" 6 9 rosterAB (by decide)).1,
   (delete_schedule_idem "zz" 6 9 rosterAB (by decide)).2 (by decide)
     (by decide)⟩

/-- C7 counterexample: with the Monday-only bi-weekly base-AM rule, a
first call over [7, 14] produces the PM entry on day 14; a second call
over the overlapping range [14, 14] appends an AM entry there (its week
offset restarts at 0), so the list holds only one copy of the first
call's PM entry — the second call did not duplicate it. -/
theorem add_schedule_overlap_no_copy :
    lookupDay (add_schedule "kim" [] wiMonBi 7 14 []) 14 =
      some [⟨"kim", Shift.PM, false, false⟩] ∧
    ((lookupDay (add_schedule "kim" [] wiMonBi 14 14
        (add_schedule "kim" [] wiMonBi 7 14 [])) 14).getD []).count
          ⟨"kim", Shift.PM, false, false⟩ = 1 := by
  exact ⟨rfl, rfl⟩

/-- C7 (amended): a second overlapping call appends, on every overlap
date, the per-date batch it computes itself; when the two calls share the
range start, or no enabled weekday is bi-weekly, that batch equals the
first call's batch, so the date's list then holds two copies of it. -/
theorem add_schedule_overlap_duplicates (name : String)
    (shifts : List Shift) (wi : Nat → Option WRule)
    (st1 en1 st2 en2 : Nat) (sched : Roster) (k : Nat)
    (hcond : st1 = st2 ∨
      ∀ w r, wi w = some r → r.dayChecked = true → r.biweeklyChecked = false)
    (hk1 : k ∈ dateRange st1 en1) (hk2 : k ∈ dateRange st2 en2)
    (hen : enabledOn wi k = true) :
    lookupDay (add_schedule name shifts wi st2 en2
        (add_schedule name shifts wi st1 en1 sched)) k =
      some ((lookupDay sched k).getD [] ++
        dayDeltaOf name shifts wi st1 k ++ dayDeltaOf name shifts wi st1 k) := by
  have hdelta : dayDeltaOf name shifts wi st2 k = dayDeltaOf name shifts wi st1 k := by
    rcases hcond with rfl | hnb
    · rfl
    · cases hw : wi (dayOfWeek k) with
      | none => simp [dayDeltaOf, hw]
      | some r =>
        simp only [dayDeltaOf, hw]
        by_cases hd : r.dayChecked = true
        · rw [if_pos hd, if_pos hd]
          simp only [dayDelta, hnb _ r hw hd, if_neg Bool.false_ne_true]
        · rw [if_neg hd, if_neg hd]
  rw [lookup_add_schedule, if_pos ⟨hk2, hen⟩, lookup_add_schedule,
    if_pos ⟨hk1, hen⟩, hdelta, Option.getD_some, List.append_assoc]

/-- Witness for C7 (amended): the same Monday-only bi-weekly call issued
twice over [7, 14] stacks two copies of the day-14 batch. -/
theorem add_schedule_overlap_duplicates_witness :
    lookupDay (add_schedule "kim" [] wiMonBi 7 14
        (add_schedule "kim" [] wiMonBi 7 14 [])) 14 =
      some ((lookupDay ([] : Roster) 14).getD [] ++
        dayDeltaOf "kim" [] wiMonBi 7 14 ++ dayDeltaOf "kim" [] wiMonBi 7 14) :=
  add_schedule_overlap_duplicates "kim" [] wiMonBi 7 14 7 14 [] 14
    (Or.inl rfl) (by decide) (by decide) rfl

/-- C9: `removeEntries` removes exactly the entries at the given pre-call
positions (deleting in descending index order keeps the remaining
positions stable), leaving precisely the entries whose position is not in
the index set, in their original order, and touching no other date. -/
theorem removeEntries_removes_exactly (sched : Roster) (date : Nat)
    (indices : List Nat) (es : List Entry) (hnd : indices.Nodup)
    (hb : ∀ i ∈ indices, i < es.length)
    (hes : lookupDay sched date = some es) (hne : es ≠ []) :
    (lookupDay (removeEntries sched date indices) date =
      if specSurvivors indices 0 es = [] then none
      else some (specSurvivors indices 0 es)) ∧
    ∀ k, k ≠ date →
      lookupDay (removeEntries sched date indices) k = lookupDay sched k := by
  constructor
  · simp only [removeEntries, hes]
    by_cases hie : indices.isEmpty = true
    · rw [if_pos hie]
      obtain rfl := List.isEmpty_iff.mp hie
      rw [specSurvivors_of_all_lt 0 es (by simp), if_neg hne, hes]
    · rw [if_neg hie, removeIndices_eq_specSurvivors hnd hb]
      by_cases hsurv : (specSurvivors indices 0 es).isEmpty = true
      · rw [if_pos hsurv, lookupDay_eraseDay_self,
          if_pos (List.isEmpty_iff.mp hsurv)]
      · rw [if_neg hsurv, lookupDay_setDay_self _ (by rw [hes]; rfl),
          if_neg (ne_nil_of_isEmpty_eq_false (Bool.not_eq_true _ ▸ hsurv))]
  · intro k hk
    simp only [removeEntries, hes]
    by_cases hie : indices.isEmpty = true
    · rw [if_pos hie]
    · rw [if_neg hie]
      by_cases hsurv : (removeIndices es indices).isEmpty = true
      · rw [if_pos hsurv, lookupDay_eraseDay_ne hk, lookupDay_setDay_ne _ hk]
      · rw [if_neg hsurv, lookupDay_setDay_ne _ hk]

/-- Witness for C9: removing position 0 of day 7's two entries keeps
exactly the position-1 entry. -/
theorem removeEntries_removes_exactly_witness :
    lookupDay (removeEntries rosterAB 7 [0]) 7 =
      if specSurvivors [0] 0
          [⟨"a", Shift.AM, false, false⟩, ⟨"b", Shift.PM, false, false⟩] = []
      then none
      else some (specSurvivors [0] 0
        [⟨"a", Shift.AM, false, false⟩, ⟨"b", Shift.PM, false, false⟩]) :=
  (removeEntries_removes_exactly rosterAB 7 [0]
    [⟨"a", Shift.AM, false, false⟩, ⟨"b", Shift.PM, false, false⟩]
    (by decide) (by decide) rfl (by decide)).1

/-- C4: persisting a freshly loaded well-formed 5-column table is a fixed
point up to row order — `save(load(t))` has the same rows as `t` as a
multiset, and the same column set. -/
theorem save_load_roundtrip (t : Table) (hA : t.hasAbsent = true)
    (hB : t.hasTardy = true)
    (hdates : ∀ r ∈ t.rows, (r.date).isSome = true) :
    ((save_schedule (load_schedule t)).rows).Perm t.rows ∧
    (save_schedule (load_schedule t)).hasAbsent = t.hasAbsent ∧
    (save_schedule (load_schedule t)).hasTardy = t.hasTardy := by
  refine ⟨?_, by simp [save_schedule, hA], by simp [save_schedule, hB]⟩
  show (rowsOf (load_schedule t)).Perm t.rows
  unfold load_schedule
  rw [hA, hB]
  have h := rowsOf_foldl_loadRow t.rows [] (by simp [nodupKeys]) hdates
  simpa [rowsOf] using h

/-- Witness for C4 on a concrete table with a duplicated date. -/
theorem save_load_roundtrip_witness :
    ((save_schedule (load_schedule exTable)).rows).Perm exTable.rows ∧
    (save_schedule (load_schedule exTable)).hasAbsent = exTable.hasAbsent ∧
    (save_schedule (load_schedule exTable)).hasTardy = exTable.hasTardy :=
  save_load_roundtrip exTable rfl rfl (by decide)

end PartTime
